import Mathlib

/-!
Verification of the credential service of the `dia` web3-identity application.

The development shallowly embeds the TypeScript sources
(`src/services/credentialService.ts`, the security utilities of
`src/hooks/useWeb3Identity.ts`, and `src/types/credentials.ts`) into Lean:

* JavaScript strings are embedded as `List Char` (`Str`); `String.prototype`
  operations used by the code (`toLowerCase`, `split`, `startsWith`) are
  re-implemented over `List Char` with JavaScript semantics.
* ISO-8601 date strings are embedded as integer epoch-millisecond timestamps;
  a `Date` comparison `a < b` becomes integer `<`.
* The dynamically typed credential-subject objects walked by the selective
  disclosure code are embedded as a tree of string-keyed objects with scalar
  leaves (the spec's own reimplementation note: "a generic tree representation,
  map of string to variant-value").  JavaScript arrays and prototype-inherited
  properties are outside the modelled domain.
* Opaque cryptographic capabilities (the ethers signer, keccak256 and
  WebCrypto AES-GCM) are embedded as injective symbolic operations: a
  signature records the signer address and the exact signed payload, a
  ciphertext records the key, IV and plaintext, and decryption succeeds
  exactly when key and IV match (AEAD authentication).  Sources of
  randomness (`crypto.randomUUID`, `getRandomValues`) and the ambient clock
  (`Date.now`, `new Date()`) are passed in as explicit arguments.
-/

namespace Dia

/-- JavaScript strings, embedded as lists of characters. -/
abbrev Str := List Char

/-- ASCII lowering of one character, the effect of
`String.prototype.toLowerCase` on the ASCII strings handled here. -/
def lowerChar (c : Char) : Char :=
  if 65 ≤ c.toNat ∧ c.toNat ≤ 90 then Char.ofNat (c.toNat + 32) else c

/-- Embedding of `s.toLowerCase()`. -/
def lowerStr (s : Str) : Str := s.map lowerChar

/-- Embedding of `s.split(sep)` (JavaScript single-character split: the result
is never empty, and empty fragments are kept). -/
def splitOnChar (sep : Char) : Str → List Str
  | [] => [[]]
  | c :: rest =>
    let r := splitOnChar sep rest
    if c = sep then [] :: r
    else
      match r with
      | [] => [[c]]
      | h :: t => (c :: h) :: t

/-- Embedding of `s.startsWith(pre)`. -/
def jsStartsWith (s pre : Str) : Bool := pre.isPrefixOf s

/-! ## The generic value tree walked by the selective-disclosure code

`credentialSubject` is walked by `createSelectiveDisclosure` as a dynamically
typed nested object.  Objects are embedded as key-value sequences built from
`objNil` / `objCons` (a non-nested rendering of "map of string to
variant-value" so that all recursion stays structural).  Scalar JSON leaves
are `null`, booleans, numbers and strings. -/

inductive JsonValue where
  | null : JsonValue
  | bool : Bool → JsonValue
  | num : Int → JsonValue
  | str : Str → JsonValue
  | objNil : JsonValue
  | objCons : Str → JsonValue → JsonValue → JsonValue
deriving DecidableEq, Repr, Inhabited

namespace JsonValue

/-- Whether the value is a (non-null) JavaScript object, i.e. whether
`value && typeof value === 'object'` holds for it. -/
def isObjLike : JsonValue → Bool
  | objNil => true
  | objCons _ _ _ => true
  | _ => false

/-- Own-property lookup: the value of `v[k]`, for object `v` (also deciding
`k in v` in the modelled domain: the key is present iff the result is
`some`). -/
def jsGet : JsonValue → Str → Option JsonValue
  | objCons k' v' rest, k => if k' = k then some v' else jsGet rest k
  | _, _ => none

/-- Embedding of the property assignment `target[k] = v` on an object:
overwrites the entry in place when the key is present, appends it
otherwise (JavaScript key-order semantics; also the semantics of a spread
`{...target, k: v}`). -/
def jsSetKey : JsonValue → Str → JsonValue → JsonValue
  | objNil, k, v => objCons k v objNil
  | objCons k' v' rest, k, v =>
    if k' = k then objCons k' v rest else objCons k' v' (jsSetKey rest k v)
  | other, _, _ => other

/-- The keys of an object value (in order). -/
def keysOf : JsonValue → List Str
  | objCons k _ rest => k :: keysOf rest
  | _ => []

/-- Well-formedness of a value tree as a JavaScript object graph: object
spines are proper key-value sequences and no object level carries a
duplicate key (JavaScript object keys are unique).  Every tree obtained from
parsed JSON satisfies this. -/
def wfObj : JsonValue → Bool
  | objCons k v rest =>
    !(decide (k ∈ keysOf rest)) && wfObj v && wfObj rest && rest.isObjLike
  | _ => true

/-- The leaves of a value tree: every path to a non-object node, paired with
that node.  An empty object contributes no leaf. -/
def leaves : JsonValue → List (List Str × JsonValue)
  | objNil => []
  | objCons k v rest =>
    ((leaves v).map (fun p => (k :: p.1, p.2))) ++ leaves rest
  | v => [([], v)]

end JsonValue

/-- Convenience constructor for object literals. -/
def mkObj : List (Str × JsonValue) → JsonValue
  | [] => .objNil
  | (k, v) :: rest => .objCons k v (mkObj rest)

/-- Embedding of the field walk of `createSelectiveDisclosure`
(`credentialService.ts` lines 326-335): starting from `credentialSubject`,
follow each path segment while the current value is a non-null object that
has the key (`value && typeof value === 'object' && key in value`); any
failure yields `undefined` (`none`). -/
def walkPath : JsonValue → List Str → Option JsonValue
  | v, [] => some v
  | v, k :: ks =>
    if v.isObjLike then (v.jsGet k).bind (fun v' => walkPath v' ks)
    else none

/-- Embedding of the nested write of `createSelectiveDisclosure`
(`credentialService.ts` lines 338-347): descend `disclosedData` along the
path, creating `{}` for missing intermediate keys, and assign the value to
the last segment.  `none` embeds the strict-mode `TypeError` raised when the
code would descend into or assign onto a primitive (unreachable from the
service, but part of the raw operation's semantics). -/
def setNested : JsonValue → List Str → JsonValue → Option JsonValue
  | t, [], _ => some t
  | t, [k], v =>
    if t.isObjLike then some (t.jsSetKey k v) else none
  | t, k :: k' :: ks, v =>
    match t with
    | .objNil => (setNested .objNil (k' :: ks) v).map (fun u => .objCons k u .objNil)
    | .objCons key val rest =>
      match JsonValue.jsGet (.objCons key val rest) k with
      | some child =>
        (setNested child (k' :: ks) v).map
          (fun u => JsonValue.jsSetKey (.objCons key val rest) k u)
      | none =>
        (setNested .objNil (k' :: ks) v).map
          (fun u => JsonValue.jsSetKey (.objCons key val rest) k u)
    | _ => none

/-! ## Credential data model (`src/types/credentials.ts`)

Strings that the code only ever copies around (URLs, method names, status
labels) stay `Str`; ISO date strings become integer timestamps. -/

/-- The `issuer` sub-object of a `VerifiableCredential`. -/
structure Issuer where
  id : Str
  name : Option Str
deriving DecidableEq, Repr, Inhabited

/-- The `credentialStatus` sub-object of a `VerifiableCredential`. -/
structure CredentialStatus where
  id : Str
  type : Str
  status : Str
deriving DecidableEq, Repr, Inhabited

/-! ## Opaque cryptographic capabilities

The spec treats the Ethereum signing primitives as an opaque `Signer`
capability and AES-GCM as an opaque AEAD.  They are embedded symbolically:
a signature records the signer's address together with the exact payload it
signed (standing for the keccak-hashed canonical JSON, with hashing and
serialization injective), and `recoverAddress` returns that address exactly
when the recomputed payload matches. -/

/-- The canonical signing payload of `issueCredential` / `verifyCredential`:
the `JSON.stringify` of every credential field except `proof`, in source
order (`credentialService.ts` lines 109-118 and 258-267). -/
structure SigningPayload where
  context : List Str
  id : Str
  type : List Str
  issuer : Issuer
  issuanceDate : Int
  expirationDate : Option Int
  credentialSubject : JsonValue
  credentialStatus : CredentialStatus
deriving DecidableEq, Repr, Inhabited

/-- The canonical signing payload of `createSelectiveDisclosure`
(`credentialService.ts` lines 363-371). -/
structure DisclosurePayload where
  id : Str
  credentialId : Str
  recipientDid : Str
  fields : List Str
  purpose : Str
  expiresAt : Int
  data : JsonValue
deriving DecidableEq, Repr, Inhabited

/-- A message handed to `wallet.signMessage`: either the keccak hash of a
credential's canonical payload or a disclosure's canonical payload. -/
inductive SignedMessage where
  | credHash : SigningPayload → SignedMessage
  | disclosure : DisclosurePayload → SignedMessage
deriving DecidableEq, Repr, Inhabited

/-- A signature produced by `wallet.signMessage`: symbolically, the signer's
address plus the signed message. -/
structure Sig where
  signer : Str
  message : SignedMessage
deriving DecidableEq, Repr, Inhabited

/-- The session wallet (`new ethers.Wallet(privateKey)`); only its address
is observable to the embedded code, so the opaque key-to-address derivation
is elided and the wallet carries the derived address. -/
structure Wallet where
  address : Str
deriving DecidableEq, Repr, Inhabited

/-- Embedding of `wallet.signMessage`. -/
def signMessage (w : Wallet) (m : SignedMessage) : Sig := ⟨w.address, m⟩

/-- An address returned by `ethers.verifyMessage` when the signature does not
match the message: ECDSA recovery then yields an unrelated garbage address. -/
def garbageAddress : Str := "0x000000000000000000000000000000000000dead".toList

/-- Embedding of `ethers.verifyMessage(message, signature)`: recovers the
signer's address exactly when the message is the one that was signed. -/
def recoverAddress (m : SignedMessage) (sig : Sig) : Str :=
  if sig.message = m then sig.signer else garbageAddress

/-- The `proof` sub-object of a `VerifiableCredential`.  `proofValue` holds
the signature (filled in at issuance). -/
structure Proof where
  type : Str
  created : Int
  verificationMethod : Str
  proofPurpose : Str
  proofValue : Sig
deriving DecidableEq, Repr, Inhabited

/-- Embedding of `VerifiableCredential<T>`: `credentialSubject` is the
generic value tree (the code treats it duck-typed). -/
structure VerifiableCredential where
  context : List Str
  id : Str
  type : List Str
  issuer : Issuer
  issuanceDate : Int
  expirationDate : Option Int
  credentialSubject : JsonValue
  credentialStatus : CredentialStatus
  proof : Proof
deriving DecidableEq, Repr, Inhabited

/-- The canonical payload recomputed from a credential (field order of the
source's `JSON.stringify` object literal, `proof` excluded). -/
def signingPayload (c : VerifiableCredential) : SigningPayload :=
  ⟨c.context, c.id, c.type, c.issuer, c.issuanceDate, c.expirationDate,
   c.credentialSubject, c.credentialStatus⟩

/-- A plaintext handed to AES-GCM: either the JSON serialization of a
credential (injective, so embedded as the credential itself) or some other
string, which `JSON.parse` fails on. -/
inductive Plaintext where
  | cred : VerifiableCredential → Plaintext
  | junk : Str → Plaintext
deriving DecidableEq, Repr, Inhabited

/-- A symbolic AES-GCM ciphertext: records key, IV and plaintext. -/
structure AESCiphertext where
  key : Nat
  iv : List Nat
  plaintext : Plaintext
deriving DecidableEq, Repr, Inhabited

/-- Embedding of `window.crypto.subtle.encrypt` with AES-GCM. -/
def aesGcmEncrypt (key : Nat) (iv : List Nat) (pt : Plaintext) : AESCiphertext :=
  ⟨key, iv, pt⟩

/-- Embedding of `window.crypto.subtle.decrypt` with AES-GCM: AEAD
authentication makes decryption fail (`none`, the rejected promise) unless
both key and IV match the ones used at encryption. -/
def aesGcmDecrypt (key : Nat) (iv : List Nat) (ct : AESCiphertext) : Option Plaintext :=
  if ct.key = key ∧ ct.iv = iv then some ct.plaintext else none

/-- Embedding of `EncryptedCredential`: the stored `"<iv_b64>.<ct_b64>"`
string is embedded as the decoded pair (base64 is injective and dot-free, so
the split/join round trip is elided). -/
structure EncryptedCredential where
  id : Str
  type : Str
  encIv : List Nat
  encCt : AESCiphertext
  encryptionMethod : Str
  metaIssuer : Str
  metaIssuanceDate : Int
  metaExpirationDate : Option Int
  metaCredentialType : Str
  metaStatus : Str
deriving DecidableEq, Repr, Inhabited

/-- Status of a `CredentialRequest`. -/
inductive RequestStatus where
  | pending
  | approved
  | denied
deriving DecidableEq, Repr, Inhabited

/-- Embedding of `CredentialRequest`. -/
structure CredentialRequest where
  id : Str
  requesterDid : Str
  requesterName : Str
  requestDate : Int
  credentialTypes : List Str
  requiredFields : List Str
  purpose : Str
  expiresAt : Int
  callbackUrl : Option Str
  status : RequestStatus
deriving DecidableEq, Repr, Inhabited

/-- Embedding of `SelectiveDisclosure` (the returned record; `proof` holds
the final signature). -/
structure SelectiveDisclosure where
  id : Str
  credentialId : Str
  recipientDid : Str
  disclosedFields : List Str
  purpose : Str
  expiresAt : Int
  proof : Sig
deriving DecidableEq, Repr, Inhabited

/-! ## Association-list embedding of the JavaScript `Map` -/

/-- Lookup in a `Map<string, V>` embedded as an association list. -/
def lookupKey {α : Type} : List (Str × α) → Str → Option α
  | [], _ => none
  | (k', v') :: rest, k => if k' = k then some v' else lookupKey rest k

/-- Embedding of `Map.set`: overwrite in place or append. -/
def mapSet {α : Type} : List (Str × α) → Str → α → List (Str × α)
  | [], k, v => [(k, v)]
  | (k', v') :: rest, k, v =>
    if k' = k then (k, v) :: rest else (k', v') :: mapSet rest k v

/-! ## The credential service state (`credentialService.ts` lines 18-22) -/

/-- Mutable fields of the `CredentialService` singleton.  The AES-GCM
`CryptoKey` handle is embedded as a `Nat` identifier. -/
structure CredState where
  wallet : Option Wallet
  encryptionKey : Option Nat
  credentials : List (Str × EncryptedCredential)
  pendingRequests : List CredentialRequest
deriving DecidableEq, Repr, Inhabited

/-- The state of the service before `initialize`. -/
def emptyState : CredState := ⟨none, none, [], []⟩

/-- Embedding of `initialize(privateKey)`: installs the wallet derived from
the private key and a freshly generated AES-GCM session key.  The opaque
derivation and key generation are passed in as the resulting wallet and key
handle; the success path returns the updated state (failure of the opaque
crypto, which makes the source return `false`, leaves the state partially
updated and is outside the modelled domain). -/
def initializeService (st : CredState) (w : Wallet) (key : Nat) : CredState :=
  { st with wallet := some w, encryptionKey := some key }

/-- The DID method prefix used by `getDID` and `verifyCredential`. -/
def didEthrPrefix : Str := "did:ethr:".toList

/-- Embedding of `getDID()` for an installed wallet:
`did:ethr:` + lowercased address. -/
def getDIDof (w : Wallet) : Str :=
  didEthrPrefix ++ lowerStr w.address

/-- The `type` field read off a duck-typed credential subject
(`subject.type`, declared `string` in `CredentialSubject`). -/
def subjectTypeStr (s : JsonValue) : Str :=
  match s.jsGet "type".toList with
  | some (.str t) => t
  | _ => []

/-- Embedding of the spread `{...subject, id: did}` building
`credentialSubject` (`credentialService.ts` lines 90-93). -/
def spreadSetId (subject : JsonValue) (did : Str) : JsonValue :=
  subject.jsSetKey "id".toList (.str did)

/-- Embedding of `storeCredential(credential)` with the fresh random IV as an
explicit argument: encrypt the serialized credential, build the
`EncryptedCredential` record and store it under the credential id.  Throws
(`Except.error`) when the encryption key is missing. -/
def storeCredential (st : CredState) (credential : VerifiableCredential)
    (iv : List Nat) : Except Str CredState :=
  match st.encryptionKey with
  | none => .error "Encryption key not initialized".toList
  | some key =>
    let ct := aesGcmEncrypt key iv (.cred credential)
    let credentialType :=
      if credential.type.length > 1 then credential.type.getD 1 []
      else "IdentityCredential".toList
    let ec : EncryptedCredential :=
      { id := credential.id
        type := credentialType
        encIv := iv
        encCt := ct
        encryptionMethod := "AES-GCM".toList
        metaIssuer := credential.issuer.id
        metaIssuanceDate := credential.issuanceDate
        metaExpirationDate := credential.expirationDate
        metaCredentialType := credentialType
        metaStatus := credential.credentialStatus.status }
    .ok { st with credentials := mapSet st.credentials credential.id ec }

/-- Embedding of `issueCredential(subject, expirationDate?)` with the clock
(`now`), the generated UUID and the storage IV as explicit arguments.
Builds the credential, signs the keccak hash of the canonical payload with
the session wallet, stores the credential encrypted, and returns it. -/
def issueCredential (st : CredState) (subject : JsonValue)
    (expirationDate : Option Int) (now : Int) (uuid : Str) (iv : List Nat) :
    Except Str (VerifiableCredential × CredState) :=
  match st.wallet with
  | none => .error "Wallet not initialized".toList
  | some w =>
    let did := getDIDof w
    let cid := "urn:uuid:".toList ++ uuid
    let payload : SigningPayload :=
      { context :=
          ["https://www.w3.org/2018/credentials/v1".toList,
           "https://www.w3.org/2018/credentials/examples/v1".toList]
        id := cid
        type := ["VerifiableCredential".toList, subjectTypeStr subject]
        issuer := ⟨did, some "Self-Issued".toList⟩
        issuanceDate := now
        expirationDate := expirationDate
        credentialSubject := spreadSetId subject did
        credentialStatus :=
          ⟨"https://kyc.example.com/credentials/".toList ++ cid ++ "/status".toList,
           "CredentialStatusList2021".toList,
           "VERIFIED".toList⟩ }
    let credential : VerifiableCredential :=
      { context := payload.context
        id := payload.id
        type := payload.type
        issuer := payload.issuer
        issuanceDate := payload.issuanceDate
        expirationDate := payload.expirationDate
        credentialSubject := payload.credentialSubject
        credentialStatus := payload.credentialStatus
        proof :=
          { type := "EthereumECDSASignature2019".toList
            created := now
            verificationMethod := did ++ "#keys-1".toList
            proofPurpose := "assertionMethod".toList
            proofValue := signMessage w (.credHash payload) } }
    (storeCredential st credential iv).map (fun st' => (credential, st'))

/-- Embedding of `getCredential(id)`: throws when the encryption key is
missing; otherwise looks the record up (`null` when absent), decrypts and
parses, degrading any decryption or parse failure to `null`. -/
def getCredential (st : CredState) (id : Str) :
    Except Str (Option VerifiableCredential) :=
  match st.encryptionKey with
  | none => .error "Encryption key not initialized".toList
  | some key =>
    match lookupKey st.credentials id with
    | none => .ok none
    | some ec =>
      match aesGcmDecrypt key ec.encIv ec.encCt with
      | none => .ok none
      | some (.cred c) => .ok (some c)
      | some (.junk _) => .ok none

/-- Embedding of `verifyCredential(credential)` at clock `now`: expiry
short-circuit, then recomputation of the canonical payload, address
recovery, DID-suffix extraction and case-insensitive comparison. -/
def verifyCredential (now : Int) (c : VerifiableCredential) : Bool :=
  let expired :=
    match c.expirationDate with
    | some expiry => decide (expiry < now)
    | none => false
  if expired then false
  else
    let recovered := recoverAddress (.credHash (signingPayload c)) c.proof.proofValue
    let issuerDid := c.issuer.id
    let issuerAddress :=
      if jsStartsWith issuerDid didEthrPrefix then
        (splitOnChar ':' issuerDid).getD 2 []
      else issuerDid
    lowerStr recovered == lowerStr issuerAddress

/-- Embedding of the field-extraction step of `createSelectiveDisclosure`
for one requested dot-path: walk the subject; a failed walk (`undefined`)
skips the field silently, a successful one writes the value into the
accumulated `disclosedData`. -/
def extractField (subject : JsonValue) (acc : JsonValue) (field : Str) :
    Option JsonValue :=
  let keys := splitOnChar '.' field
  match walkPath subject keys with
  | none => some acc
  | some v => setNested acc keys v

/-- The `disclosedData` accumulation loop of `createSelectiveDisclosure`
(`credentialService.ts` lines 322-349), starting from `{}`. -/
def extractFieldList (subject : JsonValue) : List Str → JsonValue → Option JsonValue
  | [], acc => some acc
  | f :: fs, acc =>
    match extractField subject acc f with
    | none => none
    | some acc' => extractFieldList subject fs acc'

/-- Embedding of `createSelectiveDisclosure(credentialId, recipientDid,
fields, purpose, expiry)` with clock and generated UUID explicit.  Throws
only for a missing wallet (the check sits before the `try`); every failure
inside the `try` (missing or invalid credential, uninitialized store,
extraction error) is caught and returned as `null`. -/
def createSelectiveDisclosure (st : CredState) (credentialId recipientDid : Str)
    (fields : List Str) (purpose : Str) (expiry : Int) (now : Int) (uuid : Str) :
    Except Str (Option SelectiveDisclosure) :=
  match st.wallet with
  | none => .error "Wallet not initialized".toList
  | some w =>
    match getCredential st credentialId with
    | .error _ => .ok none
    | .ok none => .ok none
    | .ok (some credential) =>
      if verifyCredential now credential then
        match extractFieldList credential.credentialSubject fields .objNil with
        | none => .ok none
        | some disclosedData =>
          let did := "urn:uuid:".toList ++ uuid
          let payload : DisclosurePayload :=
            { id := did
              credentialId := credentialId
              recipientDid := recipientDid
              fields := fields
              purpose := purpose
              expiresAt := expiry
              data := disclosedData }
          .ok (some
            { id := did
              credentialId := credentialId
              recipientDid := recipientDid
              disclosedFields := fields
              purpose := purpose
              expiresAt := expiry
              proof := signMessage w (.disclosure payload) })
      else .ok none

/-- The disclosure data embedded in the signed payload of a returned
`SelectiveDisclosure`. -/
def disclosureData (d : SelectiveDisclosure) : JsonValue :=
  match d.proof.message with
  | .disclosure pl => pl.data
  | _ => .null

/-- Embedding of `respondToRequest(requestId, approved, disclosures?)`:
throws when no queued request has the id; otherwise sets the status of the
first matching request.  The callback delivery is the source's simulated
always-successful send (`console.log`; its `catch` arm returning `false` is
dead code), so the call returns `true`. -/
def respondToRequest (st : CredState) (requestId : Str) (approved : Bool) :
    Except Str (Bool × CredState) :=
  match st.pendingRequests.findIdx? (fun r => r.id == requestId) with
  | none => .error "Request not found".toList
  | some i =>
    let newStatus := if approved then RequestStatus.approved else RequestStatus.denied
    let st' :=
      { st with pendingRequests :=
          st.pendingRequests.modify (fun r => { r with status := newStatus }) i }
    .ok (true, st')

/-! ## RateLimiter (`useWeb3Identity.ts` security utilities, lines 122-153) -/

/-- The `requests` map of the `RateLimiter`, keyed by action name; timestamps
are `Date.now()` epoch milliseconds. -/
structure RateLimiterState where
  requests : List (Str × List Int)
deriving DecidableEq, Repr, Inhabited

/-- The rate limiter before any call. -/
def rateLimiterInit : RateLimiterState := ⟨[]⟩

/-- Embedding of `RateLimiter.isAllowed(key, limit, window)` with `Date.now()`
as the explicit `now`: keep the timestamps strictly inside the window, deny
when at least `limit` remain, otherwise record `now` and allow. -/
def isAllowed (rl : RateLimiterState) (key : Str) (limit : Nat) (window : Int)
    (now : Int) : Bool × RateLimiterState :=
  let timestamps := (lookupKey rl.requests key).getD []
  let windowStart := now - window
  let recentRequests := timestamps.filter (fun t => windowStart < t)
  if recentRequests.length ≥ limit then (false, rl)
  else (true, ⟨mapSet rl.requests key (recentRequests ++ [now])⟩)

/-! ## Validators (`useWeb3Identity.ts` security utilities, lines 156-169) -/

/-- Characters with HTML markup significance. -/
def htmlSignificant (c : Char) : Bool :=
  c = '<' ∨ c = '>' ∨ c = '&' ∨ c = '"' ∨ c = '\''

/-- Modelled from the spec: `validators.sanitizeInput` delegates to the
external DOMPurify library, whose implementation is not part of this
repository's sources.  Spec §4.5 describes the operation as pure input
sanitization that strips HTML-significant content before it is embedded or
rendered; it is modelled as removal of the HTML-significant characters. -/
def sanitizeInput (s : Str) : Str :=
  s.filter (fun c => !htmlSignificant c)

/-! ## A concrete session used to instantiate the general theorems -/

/-- A checksummed (mixed-case) wallet address. -/
def wAddr : Str := "0xAb12CdEf".toList

/-- The session wallet of the concrete scenario. -/
def testWallet : Wallet := ⟨wAddr⟩

/-- The service state right after `initialize`. -/
def st0 : CredState := initializeService emptyState testWallet 7

/-- A small KYC-style subject: a `type` and a nested `name.firstName`. -/
def subj0 : JsonValue :=
  mkObj
    [("type".toList, .str "KYCCredential".toList),
     ("name".toList, mkObj [("firstName".toList, .str "Jane".toList)])]

/-- The credential issued over `subj0` (with its post-issuance state). -/
def issuedPair : VerifiableCredential × CredState :=
  match issueCredential st0 subj0 none 100 "u1".toList [1, 2, 3] with
  | .ok p => p
  | .error _ => (default, default)

/-- The concrete issued credential. -/
def c0 : VerifiableCredential := issuedPair.1

/-- The service state after issuing `c0`. -/
def st1 : CredState := issuedPair.2

/-- A disclosure over `c0` requesting one present and one absent path. -/
def dMissPair : Option SelectiveDisclosure :=
  match createSelectiveDisclosure st1 c0.id "did:ethr:0xrecipient".toList
      ["name.firstName".toList, "missing".toList] "kyc-check".toList 2000 100
      "u2".toList with
  | .ok d => d
  | .error _ => none

/-- The disclosure record of the concrete scenario. -/
def dMiss : SelectiveDisclosure := dMissPair.getD default

/-- A queued credential request used for the `respondToRequest` scenario. -/
def req0 : CredentialRequest :=
  { id := "r1".toList
    requesterDid := "did:ethr:0xrequester".toList
    requesterName := "Acme".toList
    requestDate := 50
    credentialTypes := ["KYCCredential".toList]
    requiredFields := ["name.firstName".toList]
    purpose := "kyc-check".toList
    expiresAt := 5000
    callbackUrl := none
    status := .pending }

/-- The state holding the queued request `req0`. -/
def stReq : CredState := { st1 with pendingRequests := [req0] }

/-- The state after approving `req0`. -/
def stApproved : CredState :=
  match respondToRequest stReq "r1".toList true with
  | .ok p => p.2
  | .error _ => stReq

/-- The state after a second response (denial) to the same request. -/
def stDenied : CredState :=
  match respondToRequest stApproved "r1".toList false with
  | .ok p => p.2
  | .error _ => stApproved

/-- The post-issuance state with one extra stored record under id `x`,
encrypted under a foreign key (`8` instead of the session key `7`), so that
the session decryption rejects it. -/
def stJunk : CredState :=
  let ec : EncryptedCredential :=
    ⟨"x".toList, "IdentityCredential".toList, [9],
     aesGcmEncrypt 8 [9] (.junk "notjson".toList), "AES-GCM".toList,
     [], 0, none, [], []⟩
  { st1 with credentials := mapSet st1.credentials "x".toList ec }

/-! # Theorems

General lemmas about the embedded string, map and tree operations, followed
by one theorem per claim (with its witness or counterexample). -/

theorem lowerChar_toNat_of_upper (c : Char) (h : 65 ≤ c.toNat ∧ c.toNat ≤ 90) :
    (lowerChar c).toNat = c.toNat + 32 := by
  have hv : (c.toNat + 32).isValidChar := by
    left
    omega
  simp only [lowerChar, if_pos h]
  rw [Char.ofNat, dif_pos hv]
  rfl

theorem lowerChar_idem (c : Char) : lowerChar (lowerChar c) = lowerChar c := by
  by_cases h : 65 ≤ c.toNat ∧ c.toNat ≤ 90
  · have h2 := lowerChar_toNat_of_upper c h
    conv_lhs => rw [lowerChar]
    rw [if_neg (by omega)]
  · have hc : lowerChar c = c := by rw [lowerChar, if_neg h]
    rw [hc, hc]

theorem lowerStr_idem (s : Str) : lowerStr (lowerStr s) = lowerStr s := by
  simp [lowerStr, List.map_map, Function.comp_def, lowerChar_idem]

theorem lowerChar_eq_colon (c : Char) (h : lowerChar c = ':') : c = ':' := by
  by_cases hu : 65 ≤ c.toNat ∧ c.toNat ≤ 90
  · exfalso
    have h2 := lowerChar_toNat_of_upper c hu
    rw [h] at h2
    have h3 : ':'.toNat = 58 := by decide
    omega
  · rwa [lowerChar, if_neg hu] at h

theorem colon_not_mem_lowerStr (s : Str) (h : ':' ∉ s) : ':' ∉ lowerStr s := by
  intro hmem
  rcases List.mem_map.mp hmem with ⟨c, hc, hlc⟩
  exact h (lowerChar_eq_colon c hlc ▸ hc)

theorem splitOnChar_of_not_mem (sep : Char) (s : Str) (h : sep ∉ s) :
    splitOnChar sep s = [s] := by
  induction s with
  | nil => rfl
  | cons c rest ih =>
    have hc : c ≠ sep := fun hEq => h (hEq ▸ List.mem_cons_self c rest)
    have hr : sep ∉ rest := fun hmem => h (List.mem_cons_of_mem c hmem)
    simp [splitOnChar, hc, ih hr]

/-- Splitting a string of the form `"did:ethr:" ++ a` on a colon. -/
theorem splitOnChar_didEthr (a : Str) :
    splitOnChar ':' (didEthrPrefix ++ a) =
      "did".toList :: "ethr".toList :: splitOnChar ':' a := by
  simp [didEthrPrefix, splitOnChar]

theorem isPrefixOf_append_self (pre rest : Str) :
    pre.isPrefixOf (pre ++ rest) = true := by
  induction pre with
  | nil => simp [List.isPrefixOf]
  | cons c t ih => simp [List.isPrefixOf, ih]

theorem lookupKey_mapSet_self {α : Type} (m : List (Str × α)) (k : Str) (v : α) :
    lookupKey (mapSet m k v) k = some v := by
  induction m with
  | nil => simp [mapSet, lookupKey]
  | cons hd tl ih =>
    obtain ⟨k', v'⟩ := hd
    by_cases h : k' = k
    · simp [mapSet, lookupKey, h]
    · simp [mapSet, lookupKey, h, ih]

/-- C9: the input sanitizer is idempotent on every string. -/
theorem c9_sanitize_idempotent (s : Str) :
    sanitizeInput (sanitizeInput s) = sanitizeInput s := by
  simp [sanitizeInput, List.filter_filter]

/-- C3: a credential whose `expirationDate` lies strictly in the past is
rejected by `verifyCredential` whatever signature it carries — the result is
`false` for every possible `proofValue`, so no signature recomputation or
recovery can influence it. -/
theorem c3_expiry_short_circuit (c : VerifiableCredential) (e now : Int) (sig : Sig)
    (h1 : c.expirationDate = some e) (h2 : e < now) :
    verifyCredential now { c with proof := { c.proof with proofValue := sig } } = false := by
  simp [verifyCredential, h1, h2]

/-- Witness for C3: the concrete issued credential, expired and carrying its
own (valid) signature, fails verification. -/
theorem c3_expiry_short_circuit_witness :
    verifyCredential 100
      { { c0 with expirationDate := some 5 } with
        proof := { { c0 with expirationDate := some 5 }.proof with
                   proofValue := c0.proof.proofValue } } = false :=
  c3_expiry_short_circuit { c0 with expirationDate := some 5 } 5 100
    c0.proof.proofValue rfl (by norm_num)

/-- C10: when `issuer.id` does not start with `did:ethr:`, no address is
extracted: `verifyCredential` succeeds exactly when the credential is
unexpired and the recovered signing address equals the entire `issuer.id`
string up to ASCII case. -/
theorem c10_non_ethr_issuer_literal_compare (c : VerifiableCredential) (now : Int)
    (h : jsStartsWith c.issuer.id didEthrPrefix = false) :
    (verifyCredential now c = true ↔
      ((∀ e, c.expirationDate = some e → ¬ e < now) ∧
       lowerStr (recoverAddress (.credHash (signingPayload c)) c.proof.proofValue) =
         lowerStr c.issuer.id)) := by
  cases hexp : c.expirationDate with
  | none =>
    simp [verifyCredential, hexp, h]
  | some e =>
    by_cases hlt : e < now
    · simp only [verifyCredential, hexp, hlt]
      constructor
      · intro hfalse
        simp at hfalse
      · rintro ⟨hall, -⟩
        exact absurd hlt (hall e rfl)
    · have hle : now ≤ e := not_lt.mp hlt
      simp [verifyCredential, hexp, hlt, h, hle]

/-- Witness for C10: a variant of the issued credential whose issuer id is a
bare name; the verification outcome coincides with the literal
case-insensitive comparison. -/
theorem c10_non_ethr_issuer_literal_compare_witness :
    (verifyCredential 100 { c0 with issuer := ⟨"Alice".toList, none⟩ } = true ↔
      ((∀ e, ({ c0 with issuer := ⟨"Alice".toList, none⟩ } :
                VerifiableCredential).expirationDate = some e → ¬ e < 100) ∧
       lowerStr (recoverAddress
           (.credHash (signingPayload { c0 with issuer := ⟨"Alice".toList, none⟩ }))
           ({ c0 with issuer := ⟨"Alice".toList, none⟩} :
               VerifiableCredential).proof.proofValue) =
         lowerStr ({ c0 with issuer := ⟨"Alice".toList, none⟩} :
               VerifiableCredential).issuer.id)) :=
  c10_non_ethr_issuer_literal_compare { c0 with issuer := ⟨"Alice".toList, none⟩ }
    100 (by decide)

/-- C7: with the session key installed, `getCredential` never throws — it
yields `ok` on every id, `null` when the id is absent, and `null` (rather
than an exception) when decryption rejects or the decrypted blob fails to
parse as a credential. -/
theorem c7_getCredential_never_throws (st : CredState) (key : Nat) (id : Str)
    (h : st.encryptionKey = some key) :
    (∃ r, getCredential st id = .ok r) ∧
    (lookupKey st.credentials id = none → getCredential st id = .ok none) ∧
    (∀ ec, lookupKey st.credentials id = some ec →
      aesGcmDecrypt key ec.encIv ec.encCt = none →
      getCredential st id = .ok none) ∧
    (∀ ec s, lookupKey st.credentials id = some ec →
      aesGcmDecrypt key ec.encIv ec.encCt = some (.junk s) →
      getCredential st id = .ok none) := by
  refine ⟨?_, ?_, ?_, ?_⟩
  · cases hl : lookupKey st.credentials id with
    | none => exact ⟨none, by simp [getCredential, h, hl]⟩
    | some ec =>
      cases hd : aesGcmDecrypt key ec.encIv ec.encCt with
      | none => exact ⟨none, by simp [getCredential, h, hl, hd]⟩
      | some pt =>
        cases pt with
        | cred c => exact ⟨some c, by simp [getCredential, h, hl, hd]⟩
        | junk s => exact ⟨none, by simp [getCredential, h, hl, hd]⟩
  · intro hl
    simp [getCredential, h, hl]
  · intro ec hl hd
    simp [getCredential, h, hl, hd]
  · intro ec s hl hd
    simp [getCredential, h, hl, hd]

/-- Witness for C7: the concrete post-issuance state, with a foreign record
stored under id `x` whose ciphertext was produced under a different key, so
decryption rejects. -/
theorem c7_getCredential_never_throws_witness :
    (∃ r, getCredential stJunk "x".toList = .ok r) ∧
    (lookupKey stJunk.credentials "x".toList = none →
      getCredential stJunk "x".toList = .ok none) ∧
    (∀ ec, lookupKey stJunk.credentials "x".toList = some ec →
      aesGcmDecrypt 7 ec.encIv ec.encCt = none →
      getCredential stJunk "x".toList = .ok none) ∧
    (∀ ec s, lookupKey stJunk.credentials "x".toList = some ec →
      aesGcmDecrypt 7 ec.encIv ec.encCt = some (.junk s) →
      getCredential stJunk "x".toList = .ok none) :=
  c7_getCredential_never_throws stJunk 7 "x".toList rfl

/-- C6: with limit 3 and a 1000 ms window, four calls inside one window
yield `[true, true, true, false]`; the denied call records nothing; a later
call past the window is allowed again; and in general a denied call never
records a timestamp. -/
theorem c6_rate_limiter_boundary (k : Str) (t0 t1 t2 t3 t4 : Int)
    (h01 : t0 ≤ t1) (h12 : t1 ≤ t2) (h23 : t2 ≤ t3)
    (hwin : t3 < t0 + 1000) (hgap : t2 + 1000 ≤ t4) :
    (isAllowed rateLimiterInit k 3 1000 t0).1 = true ∧
    (isAllowed (isAllowed rateLimiterInit k 3 1000 t0).2 k 3 1000 t1).1 = true ∧
    (isAllowed (isAllowed (isAllowed rateLimiterInit k 3 1000 t0).2 k 3 1000 t1).2
      k 3 1000 t2).1 = true ∧
    (isAllowed (isAllowed (isAllowed (isAllowed rateLimiterInit k 3 1000 t0).2
      k 3 1000 t1).2 k 3 1000 t2).2 k 3 1000 t3).1 = false ∧
    (isAllowed (isAllowed (isAllowed (isAllowed rateLimiterInit k 3 1000 t0).2
      k 3 1000 t1).2 k 3 1000 t2).2 k 3 1000 t3).2 =
      (isAllowed (isAllowed (isAllowed rateLimiterInit k 3 1000 t0).2
        k 3 1000 t1).2 k 3 1000 t2).2 ∧
    (isAllowed (isAllowed (isAllowed (isAllowed (isAllowed rateLimiterInit
      k 3 1000 t0).2 k 3 1000 t1).2 k 3 1000 t2).2 k 3 1000 t3).2
      k 3 1000 t4).1 = true ∧
    (∀ rl key lim win now, (isAllowed rl key lim win now).1 = false →
      (isAllowed rl key lim win now).2 = rl) := by
  have hf1 : t1 - 1000 < t0 := by omega
  have hf2a : t2 - 1000 < t0 := by omega
  have hf2b : t2 - 1000 < t1 := by omega
  have hf3a : t3 - 1000 < t0 := by omega
  have hf3b : t3 - 1000 < t1 := by omega
  have hf3c : t3 - 1000 < t2 := by omega
  have hg0 : ¬ t4 - 1000 < t0 := by omega
  have hg1 : ¬ t4 - 1000 < t1 := by omega
  have hg2 : ¬ t4 - 1000 < t2 := by omega
  have e1 : isAllowed rateLimiterInit k 3 1000 t0 = (true, ⟨[(k, [t0])]⟩) := by
    simp [isAllowed, rateLimiterInit, lookupKey, mapSet]
  have e2 : isAllowed (⟨[(k, [t0])]⟩ : RateLimiterState) k 3 1000 t1 =
      (true, ⟨[(k, [t0, t1])]⟩) := by
    simp [isAllowed, lookupKey, mapSet, hf1]
  have e3 : isAllowed (⟨[(k, [t0, t1])]⟩ : RateLimiterState) k 3 1000 t2 =
      (true, ⟨[(k, [t0, t1, t2])]⟩) := by
    simp [isAllowed, lookupKey, mapSet, hf2a, hf2b]
  have e4 : isAllowed (⟨[(k, [t0, t1, t2])]⟩ : RateLimiterState) k 3 1000 t3 =
      (false, ⟨[(k, [t0, t1, t2])]⟩) := by
    simp [isAllowed, lookupKey, mapSet, hf3a, hf3b, hf3c]
  have e5 : isAllowed (⟨[(k, [t0, t1, t2])]⟩ : RateLimiterState) k 3 1000 t4 =
      (true, ⟨[(k, [t4])]⟩) := by
    simp [isAllowed, lookupKey, mapSet, hg0, hg1, hg2]
  refine ⟨by rw [e1], by rw [e1, e2], by rw [e1, e2, e3], by rw [e1, e2, e3, e4],
    by rw [e1, e2, e3, e4], by rw [e1, e2, e3, e4, e5], ?_⟩
  intro rl key lim win now hfalse
  by_cases hge :
      (List.filter (fun t => decide (now - win < t))
        ((lookupKey rl.requests key).getD [])).length ≥ lim
  · simp only [isAllowed]
    rw [if_pos hge]
  · exfalso
    simp only [isAllowed] at hfalse
    rw [if_neg hge] at hfalse
    simp at hfalse

/-- Witness for C6: four calls at 0, 1, 2, 3 ms and a fifth at 1002 ms. -/
theorem c6_rate_limiter_boundary_witness :
    (isAllowed rateLimiterInit "issue".toList 3 1000 0).1 = true ∧
    (isAllowed (isAllowed rateLimiterInit "issue".toList 3 1000 0).2
      "issue".toList 3 1000 1).1 = true ∧
    (isAllowed (isAllowed (isAllowed rateLimiterInit "issue".toList 3 1000 0).2
      "issue".toList 3 1000 1).2 "issue".toList 3 1000 2).1 = true ∧
    (isAllowed (isAllowed (isAllowed (isAllowed rateLimiterInit "issue".toList
      3 1000 0).2 "issue".toList 3 1000 1).2 "issue".toList 3 1000 2).2
      "issue".toList 3 1000 3).1 = false ∧
    (isAllowed (isAllowed (isAllowed (isAllowed rateLimiterInit "issue".toList
      3 1000 0).2 "issue".toList 3 1000 1).2 "issue".toList 3 1000 2).2
      "issue".toList 3 1000 3).2 =
      (isAllowed (isAllowed (isAllowed rateLimiterInit "issue".toList 3 1000 0).2
        "issue".toList 3 1000 1).2 "issue".toList 3 1000 2).2 ∧
    (isAllowed (isAllowed (isAllowed (isAllowed (isAllowed rateLimiterInit
      "issue".toList 3 1000 0).2 "issue".toList 3 1000 1).2 "issue".toList
      3 1000 2).2 "issue".toList 3 1000 3).2 "issue".toList 3 1000 1002).1 = true ∧
    (∀ rl key lim win now, (isAllowed rl key lim win now).1 = false →
      (isAllowed rl key lim win now).2 = rl) :=
  c6_rate_limiter_boundary "issue".toList 0 1 2 3 1002 (by norm_num) (by norm_num)
    (by norm_num) (by norm_num) (by norm_num)

/-- C1: a credential issued in an initialized session verifies successfully
at any time at which it is not yet expired: the recomputed canonical payload
matches the signed one, address recovery returns the wallet address, and the
case-insensitive comparison against the address embedded in `issuer.id`
succeeds.  The address of an ethers wallet is hex and therefore contains no
colon, which the `split(':')` extraction relies on. -/
theorem c1_verify_after_issue (st : CredState) (w : Wallet) (subject : JsonValue)
    (expOpt : Option Int) (now now2 : Int) (uuid : Str) (iv : List Nat)
    (c : VerifiableCredential) (st' : CredState)
    (hw : st.wallet = some w)
    (haddr : ':' ∉ w.address)
    (hexp : ∀ e, expOpt = some e → ¬ e < now2)
    (hiss : issueCredential st subject expOpt now uuid iv = .ok (c, st')) :
    verifyCredential now2 c = true := by
  cases hkey : st.encryptionKey with
  | none =>
    simp [issueCredential, storeCredential, hw, hkey, Except.map] at hiss
  | some key =>
    simp only [issueCredential, storeCredential, hw, hkey, Except.map,
      Except.ok.injEq, Prod.mk.injEq] at hiss
    obtain ⟨hc, -⟩ := hiss
    subst hc
    have hsplit :
        splitOnChar ':' (didEthrPrefix ++ lowerStr w.address) =
          ["did".toList, "ethr".toList, lowerStr w.address] := by
      rw [splitOnChar_didEthr,
        splitOnChar_of_not_mem ':' (lowerStr w.address)
          (colon_not_mem_lowerStr w.address haddr)]
    cases hexpOpt : expOpt with
    | none =>
      simp [verifyCredential, getDIDof, recoverAddress, signMessage, signingPayload,
        jsStartsWith, isPrefixOf_append_self, hsplit, lowerStr_idem]
    | some e =>
      have hnow : ¬ e < now2 := hexp e hexpOpt
      simp [verifyCredential, getDIDof, recoverAddress, signMessage, signingPayload,
        jsStartsWith, isPrefixOf_append_self, hsplit, lowerStr_idem, hnow]

/-- Witness for C1: the concretely issued credential `c0` verifies at its
issuance time. -/
theorem c1_verify_after_issue_witness : verifyCredential 100 c0 = true :=
  c1_verify_after_issue st0 testWallet subj0 none 100 100 "u1".toList [1, 2, 3]
    c0 st1 rfl (by decide) (fun e h => by cases h) rfl

/-- C2: issuing stores the credential so that an immediate lookup by its id
decrypts and parses back to a value deep-equal to the issued credential. -/
theorem c2_store_roundtrip (st : CredState) (w : Wallet) (subject : JsonValue)
    (expOpt : Option Int) (now : Int) (uuid : Str) (iv : List Nat)
    (c : VerifiableCredential) (st' : CredState)
    (hw : st.wallet = some w)
    (hiss : issueCredential st subject expOpt now uuid iv = .ok (c, st')) :
    getCredential st' c.id = .ok (some c) := by
  cases hkey : st.encryptionKey with
  | none =>
    simp [issueCredential, storeCredential, hw, hkey, Except.map] at hiss
  | some key =>
    simp only [issueCredential, storeCredential, hw, hkey, Except.map,
      Except.ok.injEq, Prod.mk.injEq] at hiss
    obtain ⟨hc, hst⟩ := hiss
    subst hc
    subst hst
    simp [getCredential, hkey, lookupKey_mapSet_self, aesGcmEncrypt, aesGcmDecrypt]

/-- Witness for C2: looking up the concrete issued credential's id returns
it unchanged. -/
theorem c2_store_roundtrip_witness : getCredential st1 c0.id = .ok (some c0) :=
  c2_store_roundtrip st0 testWallet subj0 none 100 "u1".toList [1, 2, 3]
    c0 st1 rfl rfl

/-- Counterexample to C5 as stated: a disclosure over the concrete credential
`c0` requesting the absent path `missing` succeeds, and `missing` appears in
`disclosedFields` even though no such path exists in the source credential's
subject — so `disclosedFields` is not a subset of the existing dot-paths. -/
theorem c5_counterexample_disclosedFields :
    createSelectiveDisclosure st1 c0.id "did:ethr:0xrecipient".toList
      ["name.firstName".toList, "missing".toList] "kyc-check".toList 2000 100
      "u2".toList = .ok (some dMiss) ∧
    "missing".toList ∈ dMiss.disclosedFields ∧
    walkPath c0.credentialSubject (splitOnChar '.' "missing".toList) = none := by
  refine ⟨rfl, ?_, rfl⟩
  show "missing".toList ∈ dMiss.disclosedFields
  rw [show dMiss.disclosedFields =
    ["name.firstName".toList, "missing".toList] from rfl]
  exact List.mem_cons_of_mem _ (List.mem_cons_self _ _)

/-- C5 as amended: `disclosedFields` of a successfully created disclosure is
the requested `fields` list verbatim — requested-but-absent paths are only
filtered out of the disclosed data, not out of `disclosedFields`. -/
theorem c5_amended_disclosedFields_verbatim (st : CredState)
    (cid rdid : Str) (fields : List Str) (purpose : Str) (expiry now : Int)
    (uuid : Str) (d : SelectiveDisclosure)
    (h : createSelectiveDisclosure st cid rdid fields purpose expiry now uuid =
      .ok (some d)) :
    d.disclosedFields = fields := by
  cases hw : st.wallet with
  | none => simp [createSelectiveDisclosure, hw] at h
  | some w =>
    simp only [createSelectiveDisclosure, hw] at h
    cases hg : getCredential st cid with
    | error e => simp only [hg] at h; simp at h
    | ok og =>
      cases og with
      | none => simp only [hg] at h; simp at h
      | some credential =>
        simp only [hg] at h
        by_cases hv : verifyCredential now credential = true
        · rw [if_pos hv] at h
          cases hx : extractFieldList credential.credentialSubject fields .objNil with
          | none => simp only [hx] at h; simp at h
          | some dd =>
            simp only [hx, Except.ok.injEq, Option.some.injEq] at h
            subst h
            rfl
        · rw [if_neg hv] at h
          simp at h

/-- Witness for the amended C5 on the concrete disclosure. -/
theorem c5_amended_disclosedFields_verbatim_witness :
    dMiss.disclosedFields = ["name.firstName".toList, "missing".toList] :=
  c5_amended_disclosedFields_verbatim st1 c0.id "did:ethr:0xrecipient".toList
    ["name.firstName".toList, "missing".toList] "kyc-check".toList 2000 100
    "u2".toList dMiss rfl

/-- Counterexample to C8 as stated: responding to the queued request `r1`
twice first sets its status to `approved` and then mutates it again to
`denied` — the code never freezes a responded request, so the status is not
set "exactly once". -/
theorem c8_counterexample_double_respond :
    respondToRequest stReq "r1".toList true = .ok (true, stApproved) ∧
    (stApproved.pendingRequests.getD 0 req0).status = .approved ∧
    respondToRequest stApproved "r1".toList false = .ok (true, stDenied) ∧
    (stDenied.pendingRequests.getD 0 req0).status = .denied ∧
    RequestStatus.denied ≠ RequestStatus.approved :=
  ⟨rfl, rfl, rfl, rfl, by decide⟩

/-- Decomposition of a successful `findIdx?`: the list splits at the first
match, and `modify` at the found index rewrites exactly that element. -/
theorem findIdx?_modify_decomp {α : Type} (p : α → Bool) (f : α → α) :
    ∀ (l : List α) (i : Nat), l.findIdx? p = some i →
      ∃ pre r post, l = pre ++ r :: post ∧ p r = true ∧
        (∀ x ∈ pre, p x = false) ∧ l.modify f i = pre ++ f r :: post := by
  intro l
  induction l with
  | nil => intro i h; simp [List.findIdx?] at h
  | cons a t ih =>
    intro i h
    rw [List.findIdx?_cons] at h
    by_cases hpa : p a = true
    · rw [if_pos hpa] at h
      obtain rfl : (0 : Nat) = i := by simpa using h
      exact ⟨[], a, t, rfl, hpa, by simp, by simp [List.modify_zero_cons]⟩
    · rw [if_neg hpa, List.findIdx?_succ] at h
      cases ht : t.findIdx? p with
      | none => rw [ht] at h; simp at h
      | some j =>
        rw [ht] at h
        simp only [Option.map_some', Option.some.injEq] at h
        obtain ⟨pre, r, post, hl, hpr, hpre, hmod⟩ := ih j ht
        refine ⟨a :: pre, r, post, by rw [hl, List.cons_append], hpr, ?_, ?_⟩
        · intro x hx
          rcases List.mem_cons.mp hx with rfl | hx'
          · simpa using hpa
          · exact hpre x hx'
        · rw [← h, List.modify_succ_cons, hmod, List.cons_append]

/-- C8 as amended: `respondToRequest` throws exactly when no queued request
(of any status) has the given id; otherwise it returns `true` and rewrites
the status of the first matching request to approved/denied — on every call,
so a later call can overwrite an earlier response — leaving every other
field and request untouched; the (simulated, always-successful) callback
delivery never rolls the status change back. -/
theorem c8_amended_respond_sets_status (st : CredState) (rid : Str)
    (approved : Bool) :
    ((∀ r ∈ st.pendingRequests, r.id ≠ rid) →
      respondToRequest st rid approved = .error "Request not found".toList) ∧
    (∀ b st', respondToRequest st rid approved = .ok (b, st') →
      b = true ∧
      ∃ pre r post, st.pendingRequests = pre ++ r :: post ∧ r.id = rid ∧
        (∀ x ∈ pre, x.id ≠ rid) ∧
        st'.pendingRequests =
          pre ++ { r with status :=
            if approved then .approved else .denied } :: post ∧
        st'.wallet = st.wallet ∧ st'.encryptionKey = st.encryptionKey ∧
        st'.credentials = st.credentials) := by
  constructor
  · intro hall
    have hnone : st.pendingRequests.findIdx? (fun r => r.id == rid) = none := by
      rw [List.findIdx?_eq_none_iff]
      intro r hr
      simpa using hall r hr
    rw [respondToRequest, hnone]
  · intro b st' hok
    rw [respondToRequest] at hok
    cases hidx : st.pendingRequests.findIdx? (fun r => r.id == rid) with
    | none => rw [hidx] at hok; simp at hok
    | some i =>
      rw [hidx] at hok
      simp only [Except.ok.injEq, Prod.mk.injEq] at hok
      obtain ⟨hb, hst⟩ := hok
      obtain ⟨pre, r, post, hl, hpr, hpre, hmod⟩ :=
        findIdx?_modify_decomp (fun r => r.id == rid)
          (fun r => { r with status := if approved then .approved else .denied })
          st.pendingRequests i hidx
      subst hst
      exact ⟨hb.symm, pre, r, post, hl, by simpa using hpr,
        fun x hx => by simpa using hpre x hx, hmod, rfl, rfl, rfl⟩

/-- Witness for the amended C8 at the concrete queued request `r1`. -/
theorem c8_amended_respond_sets_status_witness :
    ((∀ r ∈ stReq.pendingRequests, r.id ≠ "r1".toList) →
      respondToRequest stReq "r1".toList true =
        .error "Request not found".toList) ∧
    (∀ b st', respondToRequest stReq "r1".toList true = .ok (b, st') →
      b = true ∧
      ∃ pre r post, stReq.pendingRequests = pre ++ r :: post ∧
        r.id = "r1".toList ∧
        (∀ x ∈ pre, x.id ≠ "r1".toList) ∧
        st'.pendingRequests =
          pre ++ { r with status :=
            if true then .approved else .denied } :: post ∧
        st'.wallet = stReq.wallet ∧ st'.encryptionKey = stReq.encryptionKey ∧
        st'.credentials = stReq.credentials) :=
  c8_amended_respond_sets_status stReq "r1".toList true

/-- Walking a concatenated path walks the two parts in sequence. -/
theorem walkPath_append (a b : List Str) :
    ∀ v, walkPath v (a ++ b) = (walkPath v a).bind (fun u => walkPath u b) := by
  induction a with
  | nil => intro v; simp [walkPath]
  | cons k ks ih =>
    intro v
    by_cases hobj : v.isObjLike = true
    · cases hget : v.jsGet k with
      | none => simp [walkPath, hobj, hget]
      | some v' => simp [walkPath, hobj, hget, ih v']
    · simp [walkPath, hobj]

/-- Well-formedness is inherited by the values stored in an object. -/
theorem wfObj_jsGet (k : Str) :
    ∀ v v', JsonValue.wfObj v = true → v.jsGet k = some v' →
      JsonValue.wfObj v' = true := by
  intro v
  induction v with
  | objCons key val rest ihv ihr =>
    intro v' hwf hget
    simp only [JsonValue.wfObj, Bool.and_eq_true] at hwf
    obtain ⟨⟨⟨-, hval⟩, hrest⟩, -⟩ := hwf
    rw [JsonValue.jsGet] at hget
    by_cases hk : key = k
    · rw [if_pos hk] at hget
      exact Option.some.inj hget ▸ hval
    · rw [if_neg hk] at hget
      exact ihr v' hrest hget
  | null => intro v' _ hget; cases hget
  | bool b => intro v' _ hget; cases hget
  | num n => intro v' _ hget; cases hget
  | str s => intro v' _ hget; cases hget
  | objNil => intro v' _ hget; cases hget

/-- Well-formedness is preserved along a successful walk. -/
theorem wfObj_walkPath (ks : List Str) :
    ∀ v u, JsonValue.wfObj v = true → walkPath v ks = some u →
      JsonValue.wfObj u = true := by
  induction ks with
  | nil =>
    intro v u hwf hwalk
    exact Option.some.inj hwalk ▸ hwf
  | cons k ks ih =>
    intro v u hwf hwalk
    rw [walkPath] at hwalk
    by_cases hobj : v.isObjLike = true
    · rw [if_pos hobj] at hwalk
      cases hget : v.jsGet k with
      | none => rw [hget] at hwalk; cases hwalk
      | some v' =>
        rw [hget] at hwalk
        exact ih v' u (wfObj_jsGet k v v' hwf hget) hwalk
    · rw [if_neg hobj] at hwalk
      cases hwalk

/-- In a well-formed object, every leaf path starts with one of the keys. -/
theorem mem_leaves_obj :
    ∀ (v : JsonValue) (p : List Str) (w : JsonValue),
      JsonValue.wfObj v = true → v.isObjLike = true → (p, w) ∈ v.leaves →
      ∃ k' p', p = k' :: p' ∧ k' ∈ v.keysOf := by
  intro v
  induction v with
  | objCons k val rest ihv ihr =>
    intro p w hwf _ hmem
    simp only [JsonValue.wfObj, Bool.and_eq_true] at hwf
    obtain ⟨⟨⟨-, -⟩, hwrest⟩, hrestObj⟩ := hwf
    rw [JsonValue.leaves] at hmem
    rcases List.mem_append.mp hmem with hin | hin
    · obtain ⟨⟨p', w'⟩, -, heq⟩ := List.mem_map.mp hin
      have hp : k :: p' = p := congrArg Prod.fst heq
      exact ⟨k, p', hp.symm, List.mem_cons_self k _⟩
    · obtain ⟨k', p', hp, hk'⟩ := ihr p w hwrest hrestObj hin
      exact ⟨k', p', hp, List.mem_cons_of_mem k hk'⟩
  | objNil => intro p w _ _ hmem; simp [JsonValue.leaves] at hmem
  | null => intro p w _ hobj; cases hobj
  | bool b => intro p w _ hobj; cases hobj
  | num n => intro p w _ hobj; cases hobj
  | str s => intro p w _ hobj; cases hobj

/-- In a well-formed tree, every leaf is reachable by walking its path. -/
theorem walkPath_of_mem_leaves :
    ∀ (v : JsonValue) (p : List Str) (w : JsonValue),
      JsonValue.wfObj v = true → (p, w) ∈ v.leaves → walkPath v p = some w := by
  intro v
  induction v with
  | objCons k val rest ihv ihr =>
    intro p w hwf hmem
    have hwf' := hwf
    simp only [JsonValue.wfObj, Bool.and_eq_true] at hwf'
    obtain ⟨⟨⟨hk, hwval⟩, hwrest⟩, hrestObj⟩ := hwf'
    rw [JsonValue.leaves] at hmem
    rcases List.mem_append.mp hmem with hin | hin
    · obtain ⟨⟨p', w'⟩, hmem', heq⟩ := List.mem_map.mp hin
      have hp : k :: p' = p := congrArg Prod.fst heq
      have hw : w' = w := congrArg Prod.snd heq
      rw [← hp, walkPath]
      rw [if_pos (by rfl)]
      rw [show (JsonValue.objCons k val rest).jsGet k = some val by
        rw [JsonValue.jsGet, if_pos rfl]]
      exact ihv p' w hwval (hw ▸ hmem')
    · obtain ⟨k', p', hp, hk'⟩ := mem_leaves_obj rest p w hwrest hrestObj hin
      have hne : k ≠ k' := fun hEq => by
        rw [Bool.not_eq_true'] at hk
        exact absurd (hEq ▸ hk') (by simpa using hk)
      subst hp
      rw [walkPath, if_pos (by rfl)]
      rw [show (JsonValue.objCons k val rest).jsGet k' = rest.jsGet k' by
        rw [JsonValue.jsGet, if_neg hne]]
      have hrest := ihr (k' :: p') w hwrest hin
      rw [walkPath, if_pos hrestObj] at hrest
      exact hrest
  | objNil => intro p w _ hmem; simp [JsonValue.leaves] at hmem
  | null =>
    intro p w _ hmem
    simp only [JsonValue.leaves, List.mem_singleton, Prod.mk.injEq] at hmem
    obtain ⟨rfl, rfl⟩ := hmem
    rfl
  | bool b =>
    intro p w _ hmem
    simp only [JsonValue.leaves, List.mem_singleton, Prod.mk.injEq] at hmem
    obtain ⟨rfl, rfl⟩ := hmem
    rfl
  | num n =>
    intro p w _ hmem
    simp only [JsonValue.leaves, List.mem_singleton, Prod.mk.injEq] at hmem
    obtain ⟨rfl, rfl⟩ := hmem
    rfl
  | str s =>
    intro p w _ hmem
    simp only [JsonValue.leaves, List.mem_singleton, Prod.mk.injEq] at hmem
    obtain ⟨rfl, rfl⟩ := hmem
    rfl

/-- Leaves of a stored value are leaves of the object, with the key
prepended to the path. -/
theorem jsGet_leaves (k : Str) :
    ∀ (v child : JsonValue) (p : List Str) (w : JsonValue),
      v.jsGet k = some child → (p, w) ∈ child.leaves →
      (k :: p, w) ∈ v.leaves := by
  intro v
  induction v with
  | objCons key val rest ihv ihr =>
    intro child p w hget hmem
    rw [JsonValue.jsGet] at hget
    rw [JsonValue.leaves]
    by_cases hk : key = k
    · rw [if_pos hk] at hget
      obtain rfl := Option.some.inj hget
      subst hk
      exact List.mem_append_left _ (List.mem_map.mpr ⟨(p, w), hmem, rfl⟩)
    · rw [if_neg hk] at hget
      exact List.mem_append_right _ (ihr child p w hget hmem)
  | objNil => intro child p w hget; cases hget
  | null => intro child p w hget; cases hget
  | bool b => intro child p w hget; cases hget
  | num n => intro child p w hget; cases hget
  | str s => intro child p w hget; cases hget

/-- Leaves of an object after a key assignment: each comes from the original
object or from the assigned value under the assigned key. -/
theorem jsSetKey_leaves (k : Str) (v : JsonValue) :
    ∀ (t : JsonValue) (p : List Str) (w : JsonValue),
      t.isObjLike = true → (p, w) ∈ (t.jsSetKey k v).leaves →
      (p, w) ∈ t.leaves ∨ ∃ p', p = k :: p' ∧ (p', w) ∈ v.leaves := by
  intro t
  induction t with
  | objNil =>
    intro p w _ hmem
    simp only [JsonValue.jsSetKey, JsonValue.leaves, List.append_nil] at hmem
    obtain ⟨⟨p', w'⟩, hmem', heq⟩ := List.mem_map.mp hmem
    have hp : k :: p' = p := congrArg Prod.fst heq
    have hw : w' = w := congrArg Prod.snd heq
    exact Or.inr ⟨p', hp.symm, hw ▸ hmem'⟩
  | objCons key val rest ihv ihr =>
    intro p w _ hmem
    rw [JsonValue.jsSetKey] at hmem
    by_cases hk : key = k
    · rw [if_pos hk] at hmem
      rw [JsonValue.leaves] at hmem
      rcases List.mem_append.mp hmem with hin | hin
      · obtain ⟨⟨p', w'⟩, hmem', heq⟩ := List.mem_map.mp hin
        have hp : key :: p' = p := congrArg Prod.fst heq
        have hw : w' = w := congrArg Prod.snd heq
        exact Or.inr ⟨p', by rw [← hp, hk], hw ▸ hmem'⟩
      · exact Or.inl (by rw [JsonValue.leaves]; exact List.mem_append_right _ hin)
    · rw [if_neg hk] at hmem
      rw [JsonValue.leaves] at hmem
      rcases List.mem_append.mp hmem with hin | hin
      · exact Or.inl (by rw [JsonValue.leaves]; exact List.mem_append_left _ hin)
      · by_cases hro : rest.isObjLike = true
        · rcases ihr p w hro hin with hold | hnew
          · exact Or.inl
              (by rw [JsonValue.leaves]; exact List.mem_append_right _ hold)
          · exact Or.inr hnew
        · have hid : rest.jsSetKey k v = rest := by
            cases rest with
            | objNil => cases hro rfl
            | objCons a b c => cases hro rfl
            | null => rfl
            | bool x => rfl
            | num x => rfl
            | str x => rfl
          rw [hid] at hin
          exact Or.inl (by rw [JsonValue.leaves]; exact List.mem_append_right _ hin)
  | null => intro p w hobj; cases hobj
  | bool b => intro p w hobj; cases hobj
  | num n => intro p w hobj; cases hobj
  | str s => intro p w hobj; cases hobj

/-- Leaves after a nested write: each leaf either survives from the original
accumulator or lives under the written path inside the written value. -/
theorem setNested_leaves :
    ∀ (ks : List Str) (acc v acc' : JsonValue),
      setNested acc ks v = some acc' →
      ∀ p w, (p, w) ∈ acc'.leaves →
        (p, w) ∈ acc.leaves ∨ ∃ r, p = ks ++ r ∧ (r, w) ∈ v.leaves := by
  intro ks
  induction ks with
  | nil =>
    intro acc v acc' hset p w hmem
    rw [setNested] at hset
    obtain rfl := Option.some.inj hset
    exact Or.inl hmem
  | cons k tail ih =>
    intro acc v acc' hset p w hmem
    cases tail with
    | nil =>
      rw [setNested] at hset
      by_cases hobj : acc.isObjLike = true
      · rw [if_pos hobj] at hset
        obtain rfl := Option.some.inj hset
        rcases jsSetKey_leaves k v acc p w hobj hmem with hold | ⟨p', hp, hmem'⟩
        · exact Or.inl hold
        · exact Or.inr ⟨p', by simpa using hp, hmem'⟩
      · rw [if_neg hobj] at hset
        cases hset
    | cons k' ks' =>
      cases acc with
      | objNil =>
        simp only [setNested] at hset
        cases hs : setNested .objNil (k' :: ks') v with
        | none => rw [hs] at hset; cases hset
        | some u =>
          rw [hs] at hset
          simp only [Option.map_some', Option.some.injEq] at hset
          subst hset
          simp only [JsonValue.leaves, List.append_nil] at hmem
          obtain ⟨⟨p', w'⟩, hmem', heq⟩ := List.mem_map.mp hmem
          have hp : k :: p' = p := congrArg Prod.fst heq
          have hw : w' = w := congrArg Prod.snd heq
          rcases ih .objNil v u hs p' w (hw ▸ hmem') with hold | ⟨r, hp', hr⟩
          · simp [JsonValue.leaves] at hold
          · exact Or.inr ⟨r, by simp [← hp, hp'], hr⟩
      | objCons key val rest =>
        simp only [setNested] at hset
        cases hget : JsonValue.jsGet (.objCons key val rest) k with
        | some child =>
          simp only [hget] at hset
          cases hs : setNested child (k' :: ks') v with
          | none => rw [hs] at hset; cases hset
          | some u =>
            rw [hs] at hset
            simp only [Option.map_some', Option.some.injEq] at hset
            subst hset
            rcases jsSetKey_leaves k u (.objCons key val rest) p w rfl hmem with
              hold | ⟨p', hp, hmem'⟩
            · exact Or.inl hold
            · rcases ih child v u hs p' w hmem' with hold' | ⟨r, hp', hr⟩
              · exact Or.inl (hp ▸ jsGet_leaves k _ child p' w hget hold')
              · exact Or.inr ⟨r, by simp [hp, hp'], hr⟩
        | none =>
          simp only [hget] at hset
          cases hs : setNested .objNil (k' :: ks') v with
          | none => rw [hs] at hset; cases hset
          | some u =>
            rw [hs] at hset
            simp only [Option.map_some', Option.some.injEq] at hset
            subst hset
            rcases jsSetKey_leaves k u (.objCons key val rest) p w rfl hmem with
              hold | ⟨p', hp, hmem'⟩
            · exact Or.inl hold
            · rcases ih .objNil v u hs p' w hmem' with hold' | ⟨r, hp', hr⟩
              · simp [JsonValue.leaves] at hold'
              · exact Or.inr ⟨r, by simp [hp, hp'], hr⟩
      | null => simp only [setNested] at hset; cases hset
      | bool b => simp only [setNested] at hset; cases hset
      | num n => simp only [setNested] at hset; cases hset
      | str s => simp only [setNested] at hset; cases hset

/-- Invariant of the disclosure accumulation loop: every leaf of the result
either was already in the accumulator or is reachable in the subject at its
own path, which extends one of the processed dot-paths. -/
theorem extractFieldList_inv (subject : JsonValue) (hwf : subject.wfObj = true) :
    ∀ (fs : List Str) (acc d : JsonValue),
      extractFieldList subject fs acc = some d →
      ∀ p w, (p, w) ∈ d.leaves →
        (p, w) ∈ acc.leaves ∨
        (walkPath subject p = some w ∧
          ∃ f ∈ fs, ∃ r, p = splitOnChar '.' f ++ r) := by
  intro fs
  induction fs with
  | nil =>
    intro acc d hx p w hmem
    rw [extractFieldList] at hx
    obtain rfl := Option.some.inj hx
    exact Or.inl hmem
  | cons f fs' ih =>
    intro acc d hx p w hmem
    rw [extractFieldList] at hx
    cases he : extractField subject acc f with
    | none => rw [he] at hx; cases hx
    | some acc2 =>
      simp only [he] at hx
      rcases ih acc2 d hx p w hmem with hacc2 | ⟨hwalk, f', hf', hr⟩
      · simp only [extractField] at he
        cases hwk : walkPath subject (splitOnChar '.' f) with
        | none =>
          rw [hwk] at he
          obtain rfl := Option.some.inj he
          exact Or.inl hacc2
        | some v =>
          rw [hwk] at he
          rcases setNested_leaves (splitOnChar '.' f) acc v acc2 he p w hacc2 with
            hold | ⟨r, hp, hrr⟩
          · exact Or.inl hold
          · refine Or.inr ⟨?_, f, List.mem_cons_self f fs', r, hp⟩
            rw [hp, walkPath_append, hwk]
            exact walkPath_of_mem_leaves v r w
              (wfObj_walkPath (splitOnChar '.' f) subject v hwf hwk) hrr
      · exact Or.inr ⟨hwalk, f', List.mem_cons_of_mem f hf', hr⟩

/-- A requested dot-path with a missing segment is skipped silently: removing
it from the requested field list does not change the extracted data. -/
theorem extractFieldList_skip (subject : JsonValue) (fmid : Str)
    (hmid : walkPath subject (splitOnChar '.' fmid) = none) :
    ∀ (f1 f2 : List Str) (acc : JsonValue),
      extractFieldList subject (f1 ++ fmid :: f2) acc =
        extractFieldList subject (f1 ++ f2) acc := by
  intro f1
  induction f1 with
  | nil =>
    intro f2 acc
    simp only [List.nil_append, extractFieldList, extractField, hmid]
  | cons g gs ih =>
    intro f2 acc
    simp only [List.cons_append, extractFieldList]
    cases he : extractField subject acc g with
    | none => simp only [he]
    | some acc' =>
      simp only [he]
      exact ih f2 acc'

/-- C4: for a successfully created disclosure, every leaf of the data placed
in the signed payload is reachable in the source credential's subject at the
same path and lies under one of the requested dot-paths, and a requested
path with a missing segment is skipped silently (dropping it leaves the
extracted data unchanged) rather than raising an error. -/
theorem c4_disclosure_subset_and_silent_skip (st : CredState) (cid rdid : Str)
    (fields : List Str) (purpose : Str) (expiry now : Int) (uuid : Str)
    (c : VerifiableCredential) (d : SelectiveDisclosure)
    (hc : getCredential st cid = .ok (some c))
    (hwf : c.credentialSubject.wfObj = true)
    (hd : createSelectiveDisclosure st cid rdid fields purpose expiry now uuid =
      .ok (some d)) :
    (∀ p w, (p, w) ∈ (disclosureData d).leaves →
      walkPath c.credentialSubject p = some w ∧
      ∃ f ∈ fields, ∃ r, p = splitOnChar '.' f ++ r) ∧
    (∀ f1 fmid f2 acc, walkPath c.credentialSubject (splitOnChar '.' fmid) = none →
      extractFieldList c.credentialSubject (f1 ++ fmid :: f2) acc =
        extractFieldList c.credentialSubject (f1 ++ f2) acc) := by
  constructor
  · intro p w hmem
    cases hwallet : st.wallet with
    | none => simp [createSelectiveDisclosure, hwallet] at hd
    | some wlt =>
      simp only [createSelectiveDisclosure, hwallet, hc] at hd
      by_cases hv : verifyCredential now c = true
      · rw [if_pos hv] at hd
        cases hx : extractFieldList c.credentialSubject fields .objNil with
        | none => simp only [hx] at hd; simp at hd
        | some dd =>
          simp only [hx, Except.ok.injEq, Option.some.injEq] at hd
          subst hd
          simp only [disclosureData, signMessage] at hmem
          rcases extractFieldList_inv c.credentialSubject hwf fields .objNil dd hx
              p w hmem with h0 | ⟨hwalk, hf⟩
          · simp [JsonValue.leaves] at h0
          · exact ⟨hwalk, hf⟩
      · rw [if_neg hv] at hd
        simp at hd
  · intro f1 fmid f2 acc hmid
    exact extractFieldList_skip c.credentialSubject fmid hmid f1 f2 acc

/-- Witness for C4 on the concrete disclosure `dMiss` (one resolvable path,
one path with a missing segment). -/
theorem c4_disclosure_subset_and_silent_skip_witness :
    (∀ p w, (p, w) ∈ (disclosureData dMiss).leaves →
      walkPath c0.credentialSubject p = some w ∧
      ∃ f ∈ ["name.firstName".toList, "missing".toList],
        ∃ r, p = splitOnChar '.' f ++ r) ∧
    (∀ f1 fmid f2 acc,
      walkPath c0.credentialSubject (splitOnChar '.' fmid) = none →
      extractFieldList c0.credentialSubject (f1 ++ fmid :: f2) acc =
        extractFieldList c0.credentialSubject (f1 ++ f2) acc) :=
  c4_disclosure_subset_and_silent_skip st1 c0.id "did:ethr:0xrecipient".toList
    ["name.firstName".toList, "missing".toList] "kyc-check".toList 2000 100
    "u2".toList c0 dMiss rfl (by decide) rfl

end Dia
